import Mathlib

/-!
Verification of the nekkoOS early-boot kernel (src/kernel/kernel.c and
src/kernel/string.c) against its natural-language specification.

The C sources are shallowly embedded:
* bytes are `Nat` values (`0 ≤ b < 256`); C strings are lists of their
  non-terminator bytes (the trailing `'\0'` is implicit);
* `size_t` is 32 bits on this target (types.h: `typedef uint32_t size_t`),
  so `SIZE_MAX = 2^32 - 1` and `size_t` decrements of `0` wrap to `2^32 - 1`;
* the VGA text buffer is modelled as a function `Nat → Nat` from cell index
  to the 16-bit cell value; the console state carries the cursor and the
  current color attribute exactly as the globals `terminal_row`,
  `terminal_column`, `terminal_color` do;
* `kernel_main`'s observable behaviour (text written to the console, final
  color attribute, halted-vs-idle terminal state, which subsystem
  initializers ran) is embedded as a result record, using the fact that
  `kprintf` prints its format string verbatim and ignores all further
  arguments.
-/

set_option maxRecDepth 100000

namespace NekkoOS

/-! ## Console driver (kernel.c) -/

def VGA_WIDTH : Nat := 80

def VGA_HEIGHT : Nat := 25

/-- Embeds `vga_entry_color(fg, bg) = fg | bg << 4`. -/
def vga_entry_color (fg bg : Nat) : Nat := Nat.lor fg (Nat.shiftLeft bg 4)

/-- Embeds `vga_entry(uc, color) = (uint16_t)uc | (uint16_t)color << 8`;
the `% 256` are the conversions to `unsigned char` / `uint8_t`. -/
def vga_entry (uc color : Nat) : Nat :=
  Nat.lor (uc % 256) (Nat.shiftLeft (color % 256) 8)

/-- Console driver state: the globals `terminal_row`, `terminal_column`,
`terminal_color` and the VGA cell buffer at `0xB8000` (indexed by cell). -/
structure Console where
  row : Nat
  col : Nat
  color : Nat
  buf : Nat → Nat

/-- Embeds the row bump `if (++terminal_row == VGA_HEIGHT) terminal_row = 0`. -/
def rowNext (r : Nat) : Nat := if r + 1 = VGA_HEIGHT then 0 else r + 1

/-- Embeds `terminal_putchar(c)`.  `c` is the byte value of the argument.
The tab mask `~(8-1)` on the 32-bit `size_t` column is `0xFFFFFFF8`. -/
def terminal_putchar (s : Console) (c : Nat) : Console :=
  if c = 10 then
    { s with col := 0, row := rowNext s.row }
  else if c = 13 then
    { s with col := 0 }
  else if c = 9 then
    let col2 := Nat.land (s.col + 8) 0xFFFFFFF8
    if VGA_WIDTH ≤ col2 then { s with col := 0, row := rowNext s.row }
    else { s with col := col2 }
  else
    let idx := s.row * VGA_WIDTH + s.col
    let buf2 := fun i => if i = idx then vga_entry c s.color else s.buf i
    if s.col + 1 = VGA_WIDTH then { s with buf := buf2, col := 0, row := rowNext s.row }
    else { s with buf := buf2, col := s.col + 1 }

/-- Embeds `terminal_write(data, size)`: `terminal_putchar` on each byte in
order (the caller passes `size` bytes; here they are the list). -/
def terminal_write (s : Console) (data : List Nat) : Console :=
  data.foldl terminal_putchar s

/-- Embeds `terminal_writestring(data) = terminal_write(data, strlen(data))`:
only the bytes before the first terminator are written. -/
def terminal_writestring (s : Console) (data : List Nat) : Console :=
  terminal_write s (data.takeWhile (fun b => b ≠ 0))

/-- Embeds `terminal_initialize()`: cursor to the origin, default color
`vga_entry_color(VGA_COLOR_LIGHT_GREY, VGA_COLOR_BLACK)`, and every cell of
the 80×25 grid cleared to a space under that color.  `old` is the buffer
contents before the call (only the 2000 grid cells are written). -/
def terminal_initialize_st (old : Console) : Console :=
  { row := 0, col := 0, color := vga_entry_color 7 0,
    buf := fun i =>
      if i < VGA_HEIGHT * VGA_WIDTH then vga_entry 32 (vga_entry_color 7 0)
      else old.buf i }

/-- A call in a sequence of console operations (claim C6 quantifies over
arbitrary such sequences). -/
inductive TermOp where
  | putc (c : Nat)
  | write (data : List Nat)
  | writestring (data : List Nat)

def runOp (s : Console) : TermOp → Console
  | .putc c => terminal_putchar s c
  | .write data => terminal_write s data
  | .writestring data => terminal_writestring s data

def runOps (s : Console) (ops : List TermOp) : Console := ops.foldl runOp s

/-! ## Boot sequencer (kernel_main and the init_* routines)

`kprintf(format, ...)` is `terminal_writestring(format)`: the format string
is printed verbatim and the variadic arguments are ignored, so the text each
routine writes is a fixed function of the control flow only.  (The numeric
conversions are `TODO` comments in the source.) -/

/-- Text printed by `init_memory(mboot_info)`: the memory figures themselves
are never converted to text (`// TODO: Convert numbers to strings`). -/
def init_memory_out (flags : Nat) : List Char :=
  "Initializing memory management...\n".data ++
    (if Nat.land flags 1 ≠ 0 then
      "Memory: Lower = ".data ++ "KB, Upper = ".data ++ "KB\n".data
     else []) ++
    "Memory management initialized.\n".data

def init_gdt_out : List Char :=
  "Initializing Global Descriptor Table...\n".data ++ "GDT initialized.\n".data

def init_idt_out : List Char :=
  "Initializing Interrupt Descriptor Table...\n".data ++ "IDT initialized.\n".data

def init_interrupts_out : List Char :=
  "Initializing interrupt handlers...\n".data ++ "Interrupts initialized.\n".data

/-- Observable outcome of `kernel_main`: all text written to the console, the
color attribute in force when the terminal state is reached, whether the
terminal state is the error halt (`halt:` label, `cli; hlt` loop) or the idle
loop, and which subsystem initializers were invoked. -/
structure KernelResult where
  output : List Char
  finalColor : Nat
  halted : Bool
  memInitInvoked : Bool
  gdtInitInvoked : Bool
  idtInitInvoked : Bool
  interruptsInitInvoked : Bool

/-- Embeds `kernel_main(magic, mboot_info)` for a boot record with the given
`flags`, `mem_lower`, `mem_upper` fields (the latter two are read by nothing
that prints, since `kprintf` ignores its variadic arguments).  On the success
path the last `terminal_setcolor` before the idle loop installs
`vga_entry_color(VGA_COLOR_LIGHT_GREY, VGA_COLOR_BLACK)`; on the mismatch
path the `halt:` label installs `vga_entry_color(VGA_COLOR_LIGHT_RED,
VGA_COLOR_BLACK)`. -/
def kernel_main (magic flags _memLower _memUpper : Nat) : KernelResult :=
  let banner := "nekkoOS Kernel v0.1\n".data ++ "==================\n\n".data
  if magic ≠ 0x2BADB002 then
    { output := banner ++ "ERROR: Invalid multiboot magic number!\n".data
        ++ "Expected: 0x2BADB002, Got: 0x".data ++ "\n".data
        ++ "System halted.\n".data,
      finalColor := vga_entry_color 12 0,
      halted := true,
      memInitInvoked := false, gdtInitInvoked := false,
      idtInitInvoked := false, interruptsInitInvoked := false }
  else
    { output := banner ++ "Multiboot magic verified.\n".data
        ++ "\nInitializing kernel subsystems...\n".data
        ++ "==================================\n".data
        ++ init_memory_out flags ++ init_gdt_out ++ init_idt_out
        ++ init_interrupts_out
        ++ "\nKernel initialization complete!\n".data
        ++ "===============================\n".data
        ++ "\nSystem ready. Entering idle loop...\n".data,
      finalColor := vga_entry_color 7 0,
      halted := false,
      memInitInvoked := true, gdtInitInvoked := true,
      idtInitInvoked := true, interruptsInitInvoked := true }

/-! ## String library (string.c)

C strings are modelled as the list of bytes before the terminator; `hd0`
reads the byte a string pointer currently points at (`0` at the end is the
implicit terminator). -/

/-- Byte at a modelled string pointer: head byte, or the terminator `0`. -/
def hd0 (l : List Nat) : Nat := l.headD 0

/-- Well-formed modelled C string: every stored byte is nonzero and
byte-sized. -/
def isCStr (l : List Nat) : Prop := ∀ b ∈ l, 0 < b ∧ b < 256

/-- First loop of `strncpy`: `while (n-- && (*dest++ = *src++));` with the
32-bit `size_t` countdown.  Returns the bytes the loop stores and the value
the counter holds when the loop exits: when the `n--` test consumes `n = 0`
the decrement wraps it to `SIZE_MAX = 2^32 - 1`; when the loop exits because
the copied byte was the terminator, the counter was already decremented by
the successful test. -/
def strncpy_copy_loop : List Nat → Nat → (List Nat × Nat)
  | _, 0 => ([], 2 ^ 32 - 1)
  | [], n + 1 => ([0], n)
  | b :: rest, n + 1 =>
    if b = 0 then ([0], n)
    else
      let (w, n2) := strncpy_copy_loop rest n
      (b :: w, n2)

/-- Embeds `strncpy(dest, src, n)` as the full list of bytes it stores into
`dest`, in order: the copy-loop bytes followed by the zero padding of
`while (n-- > 0) *dest++ = '\0';`, which writes exactly as many zeros as the
counter value at entry (the final failing test at `0` stores nothing). -/
def strncpy_written (src : List Nat) (n : Nat) : List Nat :=
  (strncpy_copy_loop src n).1 ++ List.replicate (strncpy_copy_loop src n).2 0

/-- Embeds `strncmp(str1, str2, n)` with its 32-bit `size_t` countdown:
`while (n-- && *str1 && (*str1 == *str2)) { str1++; str2++; }`, then
`if (n == SIZE_MAX) return 0;`, then the unsigned-byte difference.  The
first match arm is the countdown test consuming `n = 0` (the decrement wraps
to `SIZE_MAX`, which is what the sentinel test then detects); in the second
arm the counter after the decrement is the pattern variable `n`. -/
def strncmp (a b : List Nat) : Nat → Int
  | 0 => 0
  | n + 1 =>
    if hd0 a ≠ 0 ∧ hd0 a = hd0 b then strncmp a.tail b.tail n
    else if n = 2 ^ 32 - 1 then 0
    else (hd0 a : Int) - (hd0 b : Int)

/-- Length of the longest common prefix of two modelled C strings. -/
def lcp : List Nat → List Nat → Nat
  | x :: xs, y :: ys => if x = y then lcp xs ys + 1 else 0
  | _, _ => 0

/-- Embeds `strchr(str, c)` as the byte offset from `str` of the returned
pointer, `none` for `NULL`.  The final `return (*str == c) ? (char*)str :
NULL;` runs with `str` at the terminator, so searching for the byte `0`
yields the terminator position. -/
def strchr : List Nat → Nat → Option Nat
  | [], c => if 0 = c then some 0 else none
  | b :: rest, c =>
    if b = 0 then (if b = c then some 0 else none)
    else if b = c then some 0
    else (strchr rest c).map (fun k => k + 1)

/-- Single byte store into byte-addressed memory. -/
def store (m : Nat → Nat) (a v : Nat) : Nat → Nat :=
  fun i => if i = a then v else m i

/-- Forward branch of `memmove` (`d < s`): `while (num--) *d++ = *s++;`. -/
def memmove_fwd : (Nat → Nat) → Nat → Nat → Nat → (Nat → Nat)
  | m, _, _, 0 => m
  | m, d, s, k + 1 => memmove_fwd (store m d (m s)) (d + 1) (s + 1) k

/-- Backward branch of `memmove` (`d ≥ s`): `d += num; s += num;
while (num--) *--d = *--s;` — with `k + 1` bytes left the next store is at
offset `k`. -/
def memmove_bwd : (Nat → Nat) → Nat → Nat → Nat → (Nat → Nat)
  | m, _, _, 0 => m
  | m, d, s, k + 1 => memmove_bwd (store m (d + k) (m (s + k))) d s k

/-- Embeds `memmove(dest, src, num)` over byte-addressed memory: forward
copy when `dest < src`, backward copy otherwise. -/
def memmove (m : Nat → Nat) (d s n : Nat) : Nat → Nat :=
  if d < s then memmove_fwd m d s n else memmove_bwd m d s n

/-- Claim-side specification of `memmove`: the result of copying the source
region into a fresh non-overlapping temporary buffer and then copying the
temporary into the destination — `dest` ends up holding the source's
original bytes and every other address is unchanged. -/
def memmove_spec (m : Nat → Nat) (d s n : Nat) : Nat → Nat :=
  fun a => if d ≤ a ∧ a < d + n then m (s + (a - d)) else m a

/-! ## Integer-to-text conversion (itoa) and the matching-base parser -/

/-- Digit table of `itoa`: the string literal
`"0123456789abcdefghijklmnopqrstuvwxyz"`. -/
def digitsTable : List Char := "0123456789abcdefghijklmnopqrstuvwxyz".data

/-- Table read `"0123...z"[tmp_value - value * base]`.  An index outside
`[0, 36)` reads out of the bounds of the 37-byte literal (the C code indexes
with a plain `int`, which is negative for negative remainders); that
out-of-bounds read is modelled as `none`. -/
def digitLookup (d : Int) : Option Char :=
  if 0 ≤ d ∧ d < 36 then some (digitsTable.getD d.toNat ' ') else none

/-- The `do { ... } while (value);` digit loop of `itoa`, least-significant
digit first.  `Int.tdiv` is C's truncating `int` division.  The C loop needs
no fuel (for bases in `[2,36]` the quotient chain reaches `0`); `fuel`
merely bounds the model's recursion and is chosen so it never runs out for
32-bit values. -/
def itoaLoop (b : Int) : Nat → Int → Option (List Char)
  | 0, _ => none
  | fuel + 1, v =>
    (digitLookup (v - Int.tdiv v b * b)).bind
      (fun c =>
        if Int.tdiv v b = 0 then some [c]
        else (itoaLoop b fuel (Int.tdiv v b)).map (fun l => c :: l))

/-- Two's-complement wraparound of a 32-bit `int` (the effect of
`value = -value;` when the negation overflows). -/
def wrap32 (x : Int) : Int := (x + 2 ^ 31) % 2 ^ 32 - 2 ^ 31

/-- Embeds `itoa(value, str, base)` as the characters stored in `str` before
the terminator: empty for a base outside `[2,36]`; a leading `'-'` and
negated value for negative base-10 input (negation wrapping on overflow);
then the digit loop's output reversed in place (the reversal excludes the
sign).  `none` models the out-of-bounds table read the loop performs when a
digit index is negative. -/
def itoa (v b : Int) : Option (List Char) :=
  if b < 2 ∨ 36 < b then some []
  else
    (itoaLoop b 40 (if v < 0 ∧ b = 10 then wrap32 (-v) else v)).map
      (fun l => (if v < 0 ∧ b = 10 then ['-'] else []) ++ l.reverse)

/-- Value of a character as a digit in the `0-9a-z` scheme of the table
(claim-side definition, used by the matching-base parser). -/
def charVal (c : Char) : Option Nat :=
  if '0' ≤ c ∧ c ≤ '9' then some (c.toNat - 48)
  else if 'a' ≤ c ∧ c ≤ 'z' then some (c.toNat - 87)
  else none

/-- Claim-side matching-base digit-string parser: most-significant-first
accumulation, rejecting any character that is not a digit of base `b`. -/
def parseDigits (b : Nat) : Nat → List Char → Option Nat
  | acc, [] => some acc
  | acc, c :: rest =>
    (charVal c).bind (fun d => if d < b then parseDigits b (acc * b + d) rest else none)

/-- Claim-side matching-base integer parser: an optional leading `'-'`
followed by a nonempty digit string. -/
def parseInt (b : Nat) (l : List Char) : Option Int :=
  match l with
  | [] => none
  | c :: rest =>
    if c = '-' then
      (if rest = [] then none
       else (parseDigits b 0 rest).map (fun n => -(n : Int)))
    else (parseDigits b 0 (c :: rest)).map (fun n => (n : Int))

/-- A concrete console state used by closed instances. -/
def console0 : Console := { row := 0, col := 0, color := 0, buf := fun _ => 0 }

/-- Console-state invariant of the spec: the cursor stays inside the 80×25
grid. -/
def consoleInv (s : Console) : Prop := s.row < VGA_HEIGHT ∧ s.col < VGA_WIDTH

/-- C1: the claim says the boot text for magic `0x2BADB002`, memory flag set,
`mem_lower = 640`, `mem_upper = 65536` contains the decimal numerals `66176`
and `64`.  It does not: `kprintf` ignores its variadic arguments and the
number-to-text conversion is an unimplemented `TODO`, so no memory figure is
ever rendered — the code prints `"Memory: Lower = KB, Upper = KB"` with no
digits at all. -/
theorem c1_memory_totals_never_printed :
    ¬ ("66176".data <:+: (kernel_main 0x2BADB002 1 640 65536).output) ∧
    ¬ ("64".data <:+: (kernel_main 0x2BADB002 1 640 65536).output) := by
  decide

/-- C2: on magic mismatch (`0xDEADBEEF`) the kernel does set the error color
`vga_entry_color(VGA_COLOR_LIGHT_RED, VGA_COLOR_BLACK)`, does print the
expected constant's hex text `0x2BADB002`, halts, and invokes no subsystem
initializer — but the claim also says the actual received value is written in
hexadecimal, and it is not: the code prints `"Got: 0x"` followed by a bare
newline (`// TODO: Print hex number`), so neither `DEADBEEF` nor `deadbeef`
ever appears in the output. -/
theorem c2_bad_magic_halts_without_printing_actual :
    (kernel_main 0xDEADBEEF 0 0 0).halted = true ∧
    (kernel_main 0xDEADBEEF 0 0 0).finalColor = vga_entry_color 12 0 ∧
    ("0x2BADB002".data <:+: (kernel_main 0xDEADBEEF 0 0 0).output) ∧
    ¬ ("DEADBEEF".data <:+: (kernel_main 0xDEADBEEF 0 0 0).output) ∧
    ¬ ("deadbeef".data <:+: (kernel_main 0xDEADBEEF 0 0 0).output) ∧
    (kernel_main 0xDEADBEEF 0 0 0).memInitInvoked = false ∧
    (kernel_main 0xDEADBEEF 0 0 0).gdtInitInvoked = false ∧
    (kernel_main 0xDEADBEEF 0 0 0).idtInitInvoked = false ∧
    (kernel_main 0xDEADBEEF 0 0 0).interruptsInitInvoked = false := by
  decide

/-- C3: `strncpy` is supposed to store exactly `n` bytes and nothing at or
beyond `dest[n]`.  It does not: when the source does not terminate within
`n` bytes the first loop's final `n--` test wraps the 32-bit counter from
`0` to `SIZE_MAX`, and the padding loop then stores `2^32 - 1` zero bytes.
For `src = "a"`, `n = 1` the call stores `2^32` bytes in total. -/
theorem c3_strncpy_overruns_bound :
    (strncpy_written [97] 1).length = 2 ^ 32 ∧ 1 < (strncpy_written [97] 1).length := by
  have h : strncpy_copy_loop [97] 1 = ([97], 2 ^ 32 - 1) := by decide
  have h2 : (strncpy_written [97] 1).length = 2 ^ 32 := by
    rw [strncpy_written, h]
    rw [List.length_append, List.length_replicate]
    norm_num
  exact ⟨h2, by omega⟩

/-- Unfolded form of `terminal_putchar` (the `let`s zeta-reduced), used to
drive the console proofs. -/
theorem terminal_putchar_eq (s : Console) (c : Nat) :
    terminal_putchar s c =
      if c = 10 then { s with col := 0, row := rowNext s.row }
      else if c = 13 then { s with col := 0 }
      else if c = 9 then
        (if VGA_WIDTH ≤ Nat.land (s.col + 8) 0xFFFFFFF8 then
           { s with col := 0, row := rowNext s.row }
         else { s with col := Nat.land (s.col + 8) 0xFFFFFFF8 })
      else
        (if s.col + 1 = VGA_WIDTH then
           { s with
              buf := fun i =>
                if i = s.row * VGA_WIDTH + s.col then vga_entry c s.color else s.buf i,
              col := 0, row := rowNext s.row }
         else
           { s with
              buf := fun i =>
                if i = s.row * VGA_WIDTH + s.col then vga_entry c s.color else s.buf i,
              col := s.col + 1 }) := rfl

/-- For columns on the grid, the tab mask computes the next multiple of 8
strictly above the column. -/
theorem tab_land_eq : ∀ c, c < 80 → Nat.land (c + 8) 0xFFFFFFF8 = 8 * (c / 8) + 8 := by
  decide

/-- The row bump is addition by one modulo the grid height. -/
theorem rowNext_eq_mod (r : Nat) (h : r < VGA_HEIGHT) : rowNext r = (r + 1) % 25 := by
  unfold rowNext VGA_HEIGHT at *
  split <;> omega

theorem rowNext_lt (r : Nat) (h : r < VGA_HEIGHT) : rowNext r < VGA_HEIGHT := by
  unfold rowNext VGA_HEIGHT at *
  split <;> omega

/-- C5 counterexample: with the cursor at column 8, the next multiple of 8
that is greater than or equal to the current column is 8 itself, so the
claim says the column stays 8; but `terminal_column = (terminal_column + 8)
& ~(8 - 1)` advances it to 16. -/
theorem c5_tab_counterexample :
    (terminal_putchar { console0 with col := 8 } 9).col = 16 ∧
    ¬ ((terminal_putchar { console0 with col := 8 } 9).col = 8) := by
  decide

/-- C5 (amended): on `terminal_putchar('\t')` the column becomes the next
multiple of 8 STRICTLY greater than the current column — the value
`8 * (col / 8) + 8`, a multiple of 8 with `col < it ≤ col + 8`; if that
value meets or exceeds 80 the transition instead behaves exactly like an
end-of-line overflow (column 0, row advanced by one modulo 25); no character
cell is written and the color attribute is unchanged. -/
theorem c5_tab_next_multiple (s : Console) (hc : s.col < VGA_WIDTH) (hr : s.row < VGA_HEIGHT) :
    (8 * (s.col / 8) + 8) % 8 = 0 ∧
    s.col < 8 * (s.col / 8) + 8 ∧
    8 * (s.col / 8) + 8 ≤ s.col + 8 ∧
    (terminal_putchar s 9).buf = s.buf ∧
    (terminal_putchar s 9).color = s.color ∧
    (if 8 * (s.col / 8) + 8 < 80 then
      (terminal_putchar s 9).col = 8 * (s.col / 8) + 8 ∧ (terminal_putchar s 9).row = s.row
     else
      (terminal_putchar s 9).col = 0 ∧ (terminal_putchar s 9).row = (s.row + 1) % 25) := by
  have hc80 : s.col < 80 := hc
  have ht := tab_land_eq s.col hc80
  have hdm := Nat.div_add_mod s.col 8
  have key : terminal_putchar s 9 =
      if VGA_WIDTH ≤ 8 * (s.col / 8) + 8 then { s with col := 0, row := rowNext s.row }
      else { s with col := 8 * (s.col / 8) + 8 } := by
    rw [terminal_putchar_eq, ht]
    norm_num
  refine ⟨by omega, by omega, by omega, ?_, ?_, ?_⟩
  · rw [key]
    split <;> rfl
  · rw [key]
    split <;> rfl
  · by_cases hb : 8 * (s.col / 8) + 8 < 80
    · rw [if_pos hb, key, if_neg (by simp only [VGA_WIDTH]; omega)]
      exact ⟨rfl, rfl⟩
    · rw [if_neg hb, key, if_pos (by simp only [VGA_WIDTH]; omega)]
      exact ⟨rfl, rowNext_eq_mod s.row hr⟩

/-- Closed instance of the amended C5 theorem at column 3 (tab stop 8). -/
theorem c5_tab_next_multiple_witness :
    (terminal_putchar { console0 with col := 3 } 9).col = 8 ∧
    (terminal_putchar { console0 with col := 3 } 9).row = 0 := by
  have h := c5_tab_next_multiple { console0 with col := 3 } (by decide) (by decide)
  have h6 := h.2.2.2.2.2
  norm_num [console0] at h6
  exact h6

/-- C10: a single `terminal_putchar` call never changes the color attribute,
changes no cell other than the one at index `row * 80 + column`, and for the
control bytes `'\n'`, `'\r'`, `'\t'` changes no cell at all. -/
theorem c10_putchar_frame (s : Console) (hr : s.row < VGA_HEIGHT) (hc : s.col < VGA_WIDTH)
    (c : Nat) :
    (terminal_putchar s c).color = s.color ∧
    (∀ i, i ≠ s.row * VGA_WIDTH + s.col → (terminal_putchar s c).buf i = s.buf i) ∧
    ((c = 10 ∨ c = 13 ∨ c = 9) → (terminal_putchar s c).buf = s.buf) := by
  rw [terminal_putchar_eq]
  refine ⟨?_, ?_, ?_⟩
  · split_ifs <;> rfl
  · intro i hi
    split_ifs <;> first
      | rfl
      | (show (if i = s.row * VGA_WIDTH + s.col then vga_entry c s.color else s.buf i) = s.buf i
         exact if_neg hi)
  · rintro (rfl | rfl | rfl) <;> split_ifs <;> first | rfl | omega

/-- Closed instance of the C10 frame theorem. -/
theorem c10_putchar_frame_witness :
    (terminal_putchar console0 65).color = console0.color ∧
    (terminal_putchar console0 65).buf 1 = console0.buf 1 := by
  have h := c10_putchar_frame console0 (by decide) (by decide) 65
  exact ⟨h.1, h.2.1 1 (by decide)⟩

theorem terminal_putchar_inv (s : Console) (c : Nat) (h : consoleInv s) :
    consoleInv (terminal_putchar s c) := by
  obtain ⟨hr, hc⟩ := h
  unfold consoleInv at *
  rw [terminal_putchar_eq]
  split_ifs with h1 h2 h3 h4 h5
  · exact ⟨rowNext_lt _ hr, by show (0 : Nat) < VGA_WIDTH; decide⟩
  · exact ⟨hr, by show (0 : Nat) < VGA_WIDTH; decide⟩
  · exact ⟨rowNext_lt _ hr, by show (0 : Nat) < VGA_WIDTH; decide⟩
  · exact ⟨hr, Nat.lt_of_not_le h4⟩
  · exact ⟨rowNext_lt _ hr, by show (0 : Nat) < VGA_WIDTH; decide⟩
  · refine ⟨hr, ?_⟩
    show s.col + 1 < VGA_WIDTH
    unfold VGA_WIDTH at h5 hc ⊢
    omega

theorem terminal_write_inv (data : List Nat) :
    ∀ s, consoleInv s → consoleInv (terminal_write s data) := by
  induction data with
  | nil => exact fun s h => h
  | cons b rest ih =>
    intro s h
    exact ih (terminal_putchar s b) (terminal_putchar_inv s b h)

theorem runOp_inv (s : Console) (op : TermOp) (h : consoleInv s) : consoleInv (runOp s op) := by
  cases op with
  | putc c => exact terminal_putchar_inv s c h
  | write data => exact terminal_write_inv data s h
  | writestring data => exact terminal_write_inv _ s h

theorem runOps_inv (ops : List TermOp) : ∀ s, consoleInv s → consoleInv (runOps s ops) := by
  induction ops with
  | nil => exact fun s h => h
  | cons op rest ih =>
    intro s h
    exact ih (runOp s op) (runOp_inv s op h)

theorem terminal_initialize_st_inv (old : Console) : consoleInv (terminal_initialize_st old) := by
  exact ⟨by norm_num [terminal_initialize_st, VGA_HEIGHT], by norm_num [terminal_initialize_st, VGA_WIDTH]⟩

/-- C6: starting from the state `terminal_initialize` establishes, any
sequence of `terminal_putchar` / `terminal_write` / `terminal_writestring`
calls keeps `row ∈ [0,24]` and `column ∈ [0,79]`; moreover a printable byte
written at column 79 wraps to column 0 of the next row (modulo 25 — so
overflow past row 24 wraps to row 0), as does a newline's row advance. -/
theorem c6_console_invariant (old : Console) (ops : List TermOp) :
    consoleInv (runOps (terminal_initialize_st old) ops) ∧
    (∀ s c, consoleInv s → c ≠ 10 → c ≠ 13 → c ≠ 9 → s.col = 79 →
      (terminal_putchar s c).col = 0 ∧ (terminal_putchar s c).row = (s.row + 1) % 25) ∧
    (∀ s, consoleInv s →
      (terminal_putchar s 10).col = 0 ∧ (terminal_putchar s 10).row = (s.row + 1) % 25) := by
  refine ⟨runOps_inv ops _ (terminal_initialize_st_inv old), ?_, ?_⟩
  · intro s c hs h10 h13 h9 h79
    rw [terminal_putchar_eq, if_neg h10, if_neg h13, if_neg h9,
      if_pos (by rw [h79]; rfl)]
    exact ⟨rfl, rowNext_eq_mod s.row hs.1⟩
  · intro s hs
    rw [terminal_putchar_eq, if_pos rfl]
    exact ⟨rfl, rowNext_eq_mod s.row hs.1⟩

/-- Closed instance of the C6 theorem: the invariant after a concrete
sequence, and the column-79 wrap at row 24 landing on row 0. -/
theorem c6_console_invariant_witness :
    consoleInv (runOps (terminal_initialize_st console0) [TermOp.putc 65, TermOp.write [66, 10]]) ∧
    ((terminal_putchar { console0 with row := 24, col := 79 } 65).col = 0 ∧
     (terminal_putchar { console0 with row := 24, col := 79 } 65).row = (24 + 1) % 25) := by
  refine ⟨(c6_console_invariant console0 [TermOp.putc 65, TermOp.write [66, 10]]).1, ?_⟩
  have h := (c6_console_invariant console0 []).2.1 { console0 with row := 24, col := 79 } 65
    (by exact ⟨by norm_num [console0, VGA_HEIGHT], by norm_num [console0, VGA_WIDTH]⟩)
    (by norm_num) (by norm_num) (by norm_num) rfl
  exact h

theorem memmove_fwd_eq : ∀ (k : Nat) (m : Nat → Nat) (d s : Nat), d < s → ∀ a,
    memmove_fwd m d s k a = if d ≤ a ∧ a < d + k then m (s + (a - d)) else m a := by
  intro k
  induction k with
  | zero =>
    intro m d s _ a
    show m a = _
    rw [if_neg (by omega)]
  | succ k ih =>
    intro m d s hds a
    show memmove_fwd (store m d (m s)) (d + 1) (s + 1) k a = _
    rw [ih (store m d (m s)) (d + 1) (s + 1) (by omega) a]
    by_cases h1 : d + 1 ≤ a ∧ a < d + 1 + k
    · rw [if_pos h1, if_pos (by omega)]
      show (if s + 1 + (a - (d + 1)) = d then m s else m (s + 1 + (a - (d + 1)))) =
        m (s + (a - d))
      rw [if_neg (by omega)]
      congr 1
      omega
    · rw [if_neg h1]
      show (if a = d then m s else m a) = _
      by_cases h2 : a = d
      · rw [if_pos h2, if_pos (by omega)]
        congr 1
        omega
      · rw [if_neg h2, if_neg (by omega)]

theorem memmove_bwd_eq : ∀ (k : Nat) (m : Nat → Nat) (d s : Nat), s ≤ d → ∀ a,
    memmove_bwd m d s k a = if d ≤ a ∧ a < d + k then m (s + (a - d)) else m a := by
  intro k
  induction k with
  | zero =>
    intro m d s _ a
    show m a = _
    rw [if_neg (by omega)]
  | succ k ih =>
    intro m d s hsd a
    show memmove_bwd (store m (d + k) (m (s + k))) d s k a = _
    rw [ih (store m (d + k) (m (s + k))) d s hsd a]
    by_cases h1 : d ≤ a ∧ a < d + k
    · rw [if_pos h1, if_pos (by omega)]
      show (if s + (a - d) = d + k then m (s + k) else m (s + (a - d))) = m (s + (a - d))
      rw [if_neg (by omega)]
    · rw [if_neg h1]
      show (if a = d + k then m (s + k) else m a) = _
      by_cases h2 : a = d + k
      · rw [if_pos h2, if_pos (by omega)]
        congr 1
        omega
      · rw [if_neg h2, if_neg (by omega)]

/-- C7: for every memory, destination, source and length — overlapping
regions included, in both the `dest < src` forward branch and the
`dest ≥ src` backward branch — `memmove` produces exactly the result of
copying the source bytes through a fresh non-overlapping temporary buffer:
`dest` receives the source's original `n` bytes and every other address is
untouched. -/
theorem c7_memmove_refines_spec (m : Nat → Nat) (d s n : Nat) :
    memmove m d s n = memmove_spec m d s n := by
  funext a
  unfold memmove memmove_spec
  by_cases h : d < s
  · rw [if_pos h, memmove_fwd_eq n m d s h a]
  · rw [if_neg h, memmove_bwd_eq n m d s (by omega) a]

/-- Unfolded successor step of `strncmp`. -/
theorem strncmp_succ (a b : List Nat) (n : Nat) :
    strncmp a b (n + 1) =
      if hd0 a ≠ 0 ∧ hd0 a = hd0 b then strncmp a.tail b.tail n
      else if n = 2 ^ 32 - 1 then 0
      else (hd0 a : Int) - (hd0 b : Int) := rfl

theorem lcp_nil_left (b : List Nat) : lcp [] b = 0 := by cases b <;> rfl

theorem lcp_nil_right (a : List Nat) : lcp a [] = 0 := by cases a <;> rfl

/-- C8: for terminated strings and any `size_t` bound `n`, `strncmp`
returns 0 whenever the bound is exhausted before any differing byte and
before either terminator (`n ≤` length of the common prefix — including
`n = 0`), and otherwise returns the signed difference of the bytes, as
unsigned values, at the first position where the strings differ or one
terminates. -/
theorem c8_strncmp_spec (a b : List Nat) (ha : isCStr a) (hb : isCStr b) (n : Nat)
    (hn : n < 2 ^ 32) :
    (n ≤ lcp a b → strncmp a b n = 0) ∧
    (lcp a b < n →
      strncmp a b n =
        (hd0 (List.drop (lcp a b) a) : Int) - (hd0 (List.drop (lcp a b) b) : Int)) := by
  induction n generalizing a b with
  | zero => exact ⟨fun _ => rfl, fun h => absurd h (Nat.not_lt_zero _)⟩
  | succ n ih =>
    have hsent : ¬ (n = 2 ^ 32 - 1) := by omega
    have hn2 : n < 2 ^ 32 := by omega
    cases a with
    | nil =>
      refine ⟨fun hle => absurd hle ?_, fun _ => ?_⟩
      · rw [lcp_nil_left]; omega
      · rw [strncmp_succ, lcp_nil_left]
        rw [if_neg (by simp [hd0]), if_neg hsent]
        simp [hd0]
    | cons x xs =>
      have hx : 0 < x ∧ x < 256 := ha x (List.mem_cons_self x xs)
      have hxs : isCStr xs := fun v hv => ha v (List.mem_cons_of_mem x hv)
      cases b with
      | nil =>
        refine ⟨fun hle => absurd hle ?_, fun _ => ?_⟩
        · rw [lcp_nil_right]; omega
        · rw [strncmp_succ, lcp_nil_right]
          rw [if_neg (by simp [hd0]), if_neg hsent]
          simp [hd0]
      | cons y ys =>
        have hys : isCStr ys := fun v hv => hb v (List.mem_cons_of_mem y hv)
        by_cases hxy : x = y
        · have hcond : hd0 (x :: xs) ≠ 0 ∧ hd0 (x :: xs) = hd0 (y :: ys) := by
            refine ⟨?_, ?_⟩ <;> simp [hd0] <;> omega
          have hl : lcp (x :: xs) (y :: ys) = lcp xs ys + 1 := by
            simp [lcp, hxy]
          obtain ⟨ih1, ih2⟩ := ih xs ys hxs hys hn2
          rw [strncmp_succ, if_pos hcond, hl]
          refine ⟨fun hle => ih1 (by omega), fun hlt => ?_⟩
          rw [List.drop_succ_cons, List.drop_succ_cons]
          exact ih2 (by omega)
        · have hcond : ¬ (hd0 (x :: xs) ≠ 0 ∧ hd0 (x :: xs) = hd0 (y :: ys)) := by
            simp [hd0]
            intro _
            exact hxy
          have hl : lcp (x :: xs) (y :: ys) = 0 := by
            simp [lcp, hxy]
          rw [strncmp_succ, if_neg hcond, if_neg hsent, hl]
          exact ⟨fun hle => absurd hle (by omega), fun _ => by simp [hd0]⟩

/-- Closed instance of the C8 theorem: bound exhausted before the
difference at index 2 gives 0; a bound past it gives the byte difference. -/
theorem c8_strncmp_spec_witness :
    strncmp [97, 98, 99] [97, 98, 100] 2 = 0 ∧
    strncmp [97, 98, 99] [97, 98, 100] 5 = (99 : Int) - 100 := by
  have h1 := c8_strncmp_spec [97, 98, 99] [97, 98, 100] (by unfold isCStr; decide) (by unfold isCStr; decide) 2 (by norm_num)
  have h2 := c8_strncmp_spec [97, 98, 99] [97, 98, 100] (by unfold isCStr; decide) (by unfold isCStr; decide) 5 (by norm_num)
  refine ⟨h1.1 (by decide), ?_⟩
  have he := h2.2 (by decide)
  rw [he]
  decide

/-- Unfolded cons step of `strchr`. -/
theorem strchr_cons (b : Nat) (rest : List Nat) (c : Nat) :
    strchr (b :: rest) c =
      if b = 0 then (if b = c then some 0 else none)
      else if b = c then some 0
      else (strchr rest c).map (fun k => k + 1) := rfl

/-- C9: on a terminated string, `strchr(s, 0)` returns a pointer to the
terminator itself — offset `length s` — rather than `NULL`; and for a
nonzero byte `c` it returns the offset of the first occurrence of `c`
before the terminator, or `NULL` when `c` does not occur. -/
theorem c9_strchr_spec (s : List Nat) (hs : isCStr s) :
    strchr s 0 = some s.length ∧
    (∀ c, c ≠ 0 → strchr s c = if c ∈ s then some (List.indexOf c s) else none) := by
  induction s with
  | nil =>
    refine ⟨rfl, fun c hc => ?_⟩
    show (if 0 = c then some 0 else none) = _
    rw [if_neg (fun h => hc h.symm), if_neg (by simp)]
  | cons b rest ih =>
    have hb : 0 < b ∧ b < 256 := hs b (List.mem_cons_self b rest)
    have hb0 : ¬ (b = 0) := by omega
    have hrest : isCStr rest := fun v hv => hs v (List.mem_cons_of_mem b hv)
    obtain ⟨ih1, ih2⟩ := ih hrest
    refine ⟨?_, fun c hc => ?_⟩
    · rw [strchr_cons, if_neg hb0, if_neg hb0, ih1]
      simp
    · rw [strchr_cons, if_neg hb0]
      by_cases hbc : b = c
      · rw [if_pos hbc]
        have hm : c ∈ b :: rest := by
          rw [← hbc]
          exact List.mem_cons_self b rest
        rw [if_pos hm, List.indexOf_cons_eq rest hbc]
      · rw [if_neg hbc, ih2 c hc]
        by_cases hm : c ∈ rest
        · rw [if_pos hm, if_pos (List.mem_cons_of_mem b hm), List.indexOf_cons_ne rest hbc]
          simp [Nat.succ_eq_add_one]
        · rw [if_neg hm, if_neg ?_]
          · rfl
          · intro h
            rcases List.mem_cons.mp h with h1 | h2
            · exact hbc h1.symm
            · exact hm h2

/-- Closed instance of the C9 theorem: terminator search on `"hi"` yields
offset 2; searching the byte `105` yields its first offset 1. -/
theorem c9_strchr_spec_witness :
    strchr [104, 105] 0 = some 2 ∧ strchr [104, 105] 105 = some 1 := by
  have h := c9_strchr_spec [104, 105] (by unfold isCStr; decide)
  refine ⟨h.1, ?_⟩
  have h2 := h.2 105 (by decide)
  rw [h2]
  decide

theorem itoaLoop_succ (b : Int) (fuel : Nat) (v : Int) :
    itoaLoop b (fuel + 1) v =
      (digitLookup (v - Int.tdiv v b * b)).bind
        (fun c =>
          if Int.tdiv v b = 0 then some [c]
          else (itoaLoop b fuel (Int.tdiv v b)).map (fun l => c :: l)) := rfl

theorem parseDigits_cons (b acc : Nat) (c : Char) (rest : List Char) :
    parseDigits b acc (c :: rest) =
      (charVal c).bind (fun d => if d < b then parseDigits b (acc * b + d) rest else none) := rfl

theorem parseInt_cons (b : Nat) (c : Char) (rest : List Char) :
    parseInt b (c :: rest) =
      if c = '-' then
        (if rest = [] then none
         else (parseDigits b 0 rest).map (fun n => -(n : Int)))
      else (parseDigits b 0 (c :: rest)).map (fun n => (n : Int)) := rfl

theorem charVal_digitsTable : ∀ d : Nat, d < 36 → charVal (digitsTable.getD d ' ') = some d := by
  decide

theorem tdiv_natCast (n b : Nat) : Int.tdiv (n : Int) (b : Int) = ((n / b : Nat) : Int) := rfl

theorem digit_natCast (n b : Nat) :
    (n : Int) - ((n / b : Nat) : Int) * (b : Int) = ((n % b : Nat) : Int) := by
  have h0 : b * (n / b) + n % b = n := Nat.div_add_mod n b
  have hcast : ((b * (n / b) + n % b : Nat) : Int) = (n : Int) := by rw [h0]
  rw [Nat.cast_add, Nat.cast_mul] at hcast
  linear_combination -hcast

theorem parseDigits_append (b : Nat) (xs ys : List Char) :
    ∀ acc, parseDigits b acc (xs ++ ys) =
      (parseDigits b acc xs).bind (fun a => parseDigits b a ys) := by
  induction xs with
  | nil => intro acc; rfl
  | cons c rest ih =>
    intro acc
    rw [List.cons_append, parseDigits_cons, parseDigits_cons]
    cases hcv : charVal c with
    | none => rfl
    | some d =>
      simp only [Option.some_bind]
      by_cases hd : d < b
      · rw [if_pos hd, if_pos hd, ih]
      · rw [if_neg hd, if_neg hd]
        rfl

theorem wrap32_id (x : Int) (h1 : -(2 ^ 31) ≤ x) (h2 : x < 2 ^ 31) : wrap32 x = x := by
  unfold wrap32
  rw [show (2 : Int) ^ 31 = 2147483648 from by norm_num,
    show (2 : Int) ^ 32 = 4294967296 from by norm_num] at *
  omega

theorem itoaLoop_round (b : Nat) (hb : 2 ≤ b) (hb36 : b ≤ 36) :
    ∀ (fuel : Nat) (n : Nat), n < b ^ (fuel + 1) →
    ∃ l : List Char, itoaLoop (b : Int) (fuel + 1) (n : Int) = some l ∧ l ≠ [] ∧
      parseDigits b 0 l.reverse = some n := by
  have hb0 : 0 < b := by omega
  intro fuel
  induction fuel with
  | zero =>
    intro n hn
    have hdiv : n / b = 0 := Nat.div_eq_of_lt (by simpa using hn)
    have hmod : n % b = n := Nat.mod_eq_of_lt (by simpa using hn)
    refine ⟨[digitsTable.getD (n % b) ' '], ?_, by simp, ?_⟩
    · rw [itoaLoop_succ, tdiv_natCast, digit_natCast, hdiv]
      rw [show digitLookup ((n % b : Nat) : Int) = some (digitsTable.getD (n % b) ' ') from ?_]
      · simp
      · unfold digitLookup
        rw [if_pos ⟨Int.natCast_nonneg _, by exact_mod_cast lt_of_lt_of_le (Nat.mod_lt n hb0) hb36⟩]
        rw [Int.toNat_natCast]
    · rw [List.reverse_singleton, parseDigits_cons, charVal_digitsTable (n % b) (lt_of_lt_of_le (Nat.mod_lt n hb0) hb36)]
      simp only [Option.some_bind]
      rw [if_pos (Nat.mod_lt n hb0)]
      show some (0 * b + n % b) = some n
      rw [Nat.zero_mul, Nat.zero_add, hmod]
  | succ fuel ih =>
    intro n hn
    have hmod36 : n % b < 36 := lt_of_lt_of_le (Nat.mod_lt n hb0) hb36
    have hlook : digitLookup ((n % b : Nat) : Int) = some (digitsTable.getD (n % b) ' ') := by
      unfold digitLookup
      rw [if_pos ⟨Int.natCast_nonneg _, by exact_mod_cast hmod36⟩, Int.toNat_natCast]
    by_cases hq : n / b = 0
    · have hnb : n < b := by
        by_contra hge
        have h1b : 1 ≤ n / b := Nat.one_le_div_iff hb0 |>.mpr (by omega)
        omega
      have hmod : n % b = n := Nat.mod_eq_of_lt hnb
      refine ⟨[digitsTable.getD (n % b) ' '], ?_, by simp, ?_⟩
      · rw [itoaLoop_succ, tdiv_natCast, digit_natCast, hq, hlook]
        simp
      · rw [List.reverse_singleton, parseDigits_cons, charVal_digitsTable (n % b) hmod36]
        simp only [Option.some_bind]
        rw [if_pos (Nat.mod_lt n hb0)]
        show some (0 * b + n % b) = some n
        rw [Nat.zero_mul, Nat.zero_add, hmod]
    · have hq' : n / b < b ^ (fuel + 1) := by
        rw [Nat.div_lt_iff_lt_mul hb0]
        calc n < b ^ (fuel + 1 + 1) := hn
        _ = b ^ (fuel + 1) * b := by rw [pow_succ]
      obtain ⟨l, hl, hlne, hp⟩ := ih (n / b) hq'
      refine ⟨digitsTable.getD (n % b) ' ' :: l, ?_, by simp, ?_⟩
      · rw [itoaLoop_succ, tdiv_natCast, digit_natCast, hlook]
        simp only [Option.some_bind]
        rw [if_neg (by exact_mod_cast hq), hl]
        rfl
      · rw [List.reverse_cons, parseDigits_append, hp]
        simp only [Option.some_bind]
        rw [parseDigits_cons, charVal_digitsTable (n % b) hmod36]
        simp only [Option.some_bind]
        rw [if_pos (Nat.mod_lt n hb0)]
        show some (n / b * b + n % b) = some n
        rw [Nat.mul_comm (n / b) b, Nat.div_add_mod]

theorem charVal_dash : charVal ('-') = none := by decide

/-- C4 (amended): the round-trip holds exactly on the domain the code
supports — for every `v ≥ 0` with any base `b ∈ [2,36]`, and for negative
`v` with base 10 (excluding `-2^31`, whose negation wraps), the
matching-base parse of `itoa`'s text recovers `v`.  No `'-'` is ever
emitted for `b ≠ 10`, but for negative `v` with `b ≠ 10` the loop indexes
the digit table at a negative offset and produces no valid numeral at all
(see the counterexample), so no round-trip — not even up to sign — holds
there. -/
theorem c4_itoa_parse_round_trip (v : Int) (b : Nat) (hb : 2 ≤ b) (hb36 : b ≤ 36)
    (hlo : -(2 ^ 31) < v) (hhi : v < 2 ^ 31) (hsign : 0 ≤ v ∨ b = 10) :
    (itoa v (b : Int)).bind (parseInt b) = some v := by
  have hbnot : ¬ ((b : Int) < 2 ∨ 36 < (b : Int)) := by omega
  rw [itoa, if_neg hbnot]
  by_cases hv : 0 ≤ v
  · have hneg : ¬ (v < 0 ∧ (b : Int) = 10) := by omega
    rw [if_neg hneg, if_neg hneg]
    have hbound : v.toNat < b ^ 40 := by
      have h1 : v.toNat < 2 ^ 31 := by omega
      have h2 : (2 : Nat) ^ 31 ≤ 2 ^ 40 := Nat.pow_le_pow_right (by norm_num) (by norm_num)
      have h3 : (2 : Nat) ^ 40 ≤ b ^ 40 := Nat.pow_le_pow_left hb 40
      omega
    obtain ⟨l, hl, hlne, hp⟩ := itoaLoop_round b hb hb36 39 v.toNat hbound
    rw [Int.toNat_of_nonneg hv] at hl
    rw [show (39 : Nat) + 1 = 40 from rfl] at hl
    rw [hl]
    show parseInt b ([] ++ l.reverse) = some v
    rw [List.nil_append]
    cases hrev : l.reverse with
    | nil => exact absurd (List.reverse_eq_nil_iff.mp hrev) hlne
    | cons c0 rest =>
      rw [hrev] at hp
      have hc0 : c0 ≠ '-' := by
        intro heq
        rw [parseDigits_cons, heq, charVal_dash] at hp
        exact Option.noConfusion hp
      rw [parseInt_cons, if_neg hc0, hp]
      show some ((v.toNat : Nat) : Int) = some v
      rw [Int.toNat_of_nonneg hv]
  · have hvneg : v < 0 := by omega
    have hb10 : b = 10 := by
      rcases hsign with h | h
      · exact absurd h hv
      · exact h
    subst hb10
    have hcond : v < 0 ∧ ((10 : Nat) : Int) = 10 := ⟨hvneg, by norm_num⟩
    rw [if_pos hcond, if_pos hcond]
    have hw : wrap32 (-v) = -v := wrap32_id (-v) (by omega) (by omega)
    rw [hw]
    have hbound : (-v).toNat < 10 ^ 40 := by
      have h1 : (-v).toNat < 2 ^ 31 := by omega
      have h2 : (2 : Nat) ^ 31 < 10 ^ 40 := by norm_num
      omega
    obtain ⟨l, hl, hlne, hp⟩ := itoaLoop_round 10 (by norm_num) (by norm_num) 39 (-v).toNat hbound
    rw [Int.toNat_of_nonneg (by omega : (0 : Int) ≤ -v)] at hl
    rw [show (39 : Nat) + 1 = 40 from rfl] at hl
    rw [hl]
    show parseInt 10 (['-'] ++ l.reverse) = some v
    rw [List.singleton_append]
    rw [parseInt_cons, if_pos rfl, if_neg (by simpa using hlne), hp]
    show some (-(((-v).toNat : Nat) : Int)) = some v
    rw [Int.toNat_of_nonneg (by omega : (0 : Int) ≤ -v), neg_neg]

/-- C4 counterexample: at `v = -1`, `b = 16` the claim says the parse of
`itoa`'s output recovers `v` up to the missing sign.  Instead the digit
computation `tmp_value - value * base = -1` indexes the table out of
bounds (modelled `none`), so the output parses neither to `-1` nor to the
magnitude `1`. -/
theorem c4_itoa_counterexample :
    itoa (-1) (16 : Int) = none ∧
    ¬ ((itoa (-1) (16 : Int)).bind (parseInt 16) = some (-1)) ∧
    ¬ ((itoa (-1) (16 : Int)).bind (parseInt 16) = some 1) := by
  decide

/-- Closed instance of the amended C4 theorem: `-237` in base 10. -/
theorem c4_itoa_parse_round_trip_witness :
    (itoa (-237) ((10 : Nat) : Int)).bind (parseInt 10) = some (-237) :=
  c4_itoa_parse_round_trip (-237) 10 (by norm_num) (by norm_num) (by norm_num) (by norm_num)
    (Or.inr rfl)

end NekkoOS
